import Mathlib

/-!
Verification of the URL-extraction pipeline of `endpoint_scrape.py`.

The Python source is shallowly embedded over `List Char`:
* the three regular expressions of `extract_urls` become executable
  scanners (`fullFindAll`, `relFindAll`, `fwdFindAll`) that reproduce
  `re.findall` semantics: leftmost scanning, alternation order, greedy
  character-class runs, the line-bounded negative lookaheads, and the
  zero-width-match protocol of CPython 3.7+ (after an empty match at a
  position, a non-empty match is attempted at the same position before
  advancing);
* `clean_urls` becomes `clean_url` (the `while`/`lstrip` loop is modelled
  with fuel; Python `lstrip("./")` removes all leading characters drawn
  from the set containing dot and slash);
* the accumulating dictionary of sets of `search_directory_for_urls`
  becomes the structure `RS` whose fields are duplicate-free lists;
* the report-writing loops of `process_repo` / `process_dir` become the
  pure functions `process_repo_output` / `process_dir_output` returning
  the character stream written to the output file.

Python's `\s` and `\w` are modelled over their ASCII ranges (the inputs
of interest are ASCII; the proofs only use that the classes exclude
newline, comma, whitespace and quotes, which holds for the full Unicode
classes as well).
-/

namespace EndpointScrape

/-- Python `\s` (ASCII range): space, tab, newline, carriage return,
vertical tab, form feed. -/
def isSpacePy (c : Char) : Bool :=
  c = ' ' || c = '\t' || c = '\n' || c = '\r' || c = '\x0b' || c = '\x0c'

/-- The quote characters of the boundary class `["']` in the two
path patterns. -/
def isQuotePy (c : Char) : Bool := c = '\"' || c = '\''

/-- A character matching the consuming boundary alternatives `\s|["']`. -/
def boundaryChar (c : Char) : Bool := isSpacePy c || isQuotePy c

/-- Python `\w` (ASCII range): letters, digits, underscore. -/
def wordChar (c : Char) : Bool := c.isAlpha || c.isDigit || c = '_'

/-- The character class `[\w./]` of the PARTIAL_URL group. -/
def pwChar (c : Char) : Bool := wordChar c || c = '.' || c = '/'

/-- The character class `[^\s"'<>]` of the FORWARD_SLASH group. -/
def fwChar (c : Char) : Bool :=
  !(isSpacePy c) && !(c = '\"') && !(c = '\'') && !(c = '<') && !(c = '>')

/-- The character class of `url_pattern` after the scheme:
`[a-zA-Z]`, `[0-9]`, the range `[$-_]` together with `@ . & +` (all of
which lie inside that range), and `! * \ ( ) ,`.  The `%XX` alternative
adds no further characters (`%` and hex digits are already included). -/
def allowedUrlChar (c : Char) : Bool :=
  c.isAlpha || c.isDigit || ('$'.toNat ≤ c.toNat && c.toNat ≤ '_'.toNat) ||
  c = '!' || c = '*' || c = '\\' || c = '(' || c = ')' || c = ','

/-- `lineContains p l` holds when `p` matches at some position of `l`
reachable without crossing a newline: this is the semantics of a
lookahead `.*X` (with `.` not matching `\n`) anchored at the start of
`l`. -/
def lineContains (p : List Char → Bool) : List Char → Bool
  | [] => false
  | c :: t => p (c :: t) || (!(c = '\n') && lineContains p t)

/-- Matches `//` at the current position (the body of lookahead
`(?!.*//)`). -/
def dsAt : List Char → Bool
  | '/' :: '/' :: _ => true
  | _ => false

/-- Matches `**` at the current position (the body of lookahead
`(?!.*\*{2})`). -/
def ssAt : List Char → Bool
  | '*' :: '*' :: _ => true
  | _ => false

/-- Matches `/*-` or `/*=` at the current position (the body of
lookahead `(?!.*\/\*[-=])`). -/
def cmAt : List Char → Bool
  | '/' :: '*' :: c :: _ => c = '-' || c = '='
  | _ => false

/-- Matches `,` at the current position (the body of lookahead
`(?!.*,)`). -/
def commaAt : List Char → Bool
  | ',' :: _ => true
  | _ => false

/-- The three negative lookaheads placed right after the boundary in the
two path patterns, evaluated on the text from the prospective group
start. -/
def rejectsAt (r : List Char) : Bool :=
  lineContains dsAt r || lineContains ssAt r || lineContains cmAt r

/-- The lookahead `(?=\s|$|["'])` after the group: end of text or a
whitespace/quote character (`$` before a final newline is subsumed since
`\n` is whitespace). -/
def tailBoundary : List Char → Bool
  | [] => true
  | c :: _ => boundaryChar c

/-- Both trailing lookaheads `(?=\s|$|["'])(?!.*,)` evaluated on the
text after the group. -/
def tailOk (rest : List Char) : Bool :=
  tailBoundary rest && !(lineContains commaAt rest)

/-- One attempt of the PARTIAL_URL pattern with the boundary already
consumed: the lookaheads, the group alternation
`(\./[\w./]*|\.\./[\w./]*|/[\w./]*)` (the greedy star is maximal because
no class character can satisfy the trailing lookahead), and the trailing
lookaheads.  Returns the captured group and the text after it. -/
def tryRel (r : List Char) : Option (List Char × List Char) :=
  if rejectsAt r then none else
  match r with
  | '.' :: '/' :: t =>
      if tailOk (t.dropWhile pwChar) then
        some ('.' :: '/' :: t.takeWhile pwChar, t.dropWhile pwChar)
      else none
  | '.' :: '.' :: '/' :: t =>
      if tailOk (t.dropWhile pwChar) then
        some ('.' :: '.' :: '/' :: t.takeWhile pwChar, t.dropWhile pwChar)
      else none
  | '/' :: t =>
      if tailOk (t.dropWhile pwChar) then
        some ('/' :: t.takeWhile pwChar, t.dropWhile pwChar)
      else none
  | _ => none

/-- One attempt of the FORWARD_SLASH pattern with the boundary already
consumed: the group `(/[^\s"'<>]*)?` is optional, so when the text does
not begin with `/` the attempt can still succeed with an empty capture
(what `findall` reports as `''`). -/
def tryFwd (r : List Char) : Option (List Char × List Char) :=
  if rejectsAt r then none else
  match r with
  | '/' :: t =>
      if tailOk (t.dropWhile fwChar) then
        some ('/' :: t.takeWhile fwChar, t.dropWhile fwChar)
      else none
  | _ => if tailOk r then some ([], r) else none

/-- Scanning loop of `partial_url_pattern.findall`.  The flag is true
exactly at position 0, where the zero-width `^` alternative applies (a
failed or empty attempt there falls through to the consuming boundary
alternatives at the same position, which is the flag-false case on the
same list).  PARTIAL_URL matches are never empty, so no empty-match
protocol is needed. -/
def relScanAux : Nat → Bool → List Char → List (List Char)
  | 0, _, _ => []
  | n+1, true, l =>
      match tryRel l with
      | some (g, rest) => g :: relScanAux n false rest
      | none => relScanAux n false l
  | _+1, false, [] => []
  | n+1, false, c :: t =>
      if boundaryChar c then
        match tryRel t with
        | some (g, rest) => g :: relScanAux n false rest
        | none => relScanAux n false t
      else relScanAux n false t

/-- Scanning loop of `forward_slash_pattern.findall`.  An empty match
can occur only through the zero-width `^` branch at position 0; after
emitting it, CPython retries a non-empty match at the same position
(the consuming-boundary attempt) before advancing — the flag-false call
on the same list. -/
def fwdScanAux : Nat → Bool → List Char → List (List Char)
  | 0, _, _ => []
  | n+1, true, l =>
      match tryFwd l with
      | some (g, rest) =>
          if g.isEmpty then g :: fwdScanAux n false l
          else g :: fwdScanAux n false rest
      | none => fwdScanAux n false l
  | _+1, false, [] => []
  | n+1, false, c :: t =>
      if boundaryChar c then
        match tryFwd t with
        | some (g, rest) => g :: fwdScanAux n false rest
        | none => fwdScanAux n false t
      else fwdScanAux n false t

/-- One attempt of `url_pattern` at the current position:
`http[s]?://` followed by a non-empty maximal run of allowed characters
(the repeated alternation consumes exactly the maximal run of the union
class since nothing follows the `+`). -/
def tryUrl : List Char → Option (List Char × List Char)
  | 'h' :: 't' :: 't' :: 'p' :: 's' :: ':' :: '/' :: '/' :: t =>
      let run := t.takeWhile allowedUrlChar
      if run.isEmpty then none
      else some ('h' :: 't' :: 't' :: 'p' :: 's' :: ':' :: '/' :: '/' :: run,
                 t.dropWhile allowedUrlChar)
  | 'h' :: 't' :: 't' :: 'p' :: ':' :: '/' :: '/' :: t =>
      let run := t.takeWhile allowedUrlChar
      if run.isEmpty then none
      else some ('h' :: 't' :: 't' :: 'p' :: ':' :: '/' :: '/' :: run,
                 t.dropWhile allowedUrlChar)
  | _ => none

/-- Scanning loop of `url_pattern.findall` (no groups, never empty). -/
def urlScanAux : Nat → List Char → List (List Char)
  | 0, _ => []
  | n+1, l =>
      match tryUrl l with
      | some (m, rest) => m :: urlScanAux n rest
      | none =>
        match l with
        | [] => []
        | _ :: t => urlScanAux n t

/-- `url_pattern.findall(text)`. -/
def fullFindAll (text : List Char) : List (List Char) :=
  urlScanAux (text.length + 1) text

/-- `partial_url_pattern.findall(text)`. -/
def relFindAll (text : List Char) : List (List Char) :=
  relScanAux (text.length + 2) true text

/-- `forward_slash_pattern.findall(text)`. -/
def fwdFindAll (text : List Char) : List (List Char) :=
  fwdScanAux (text.length + 2) true text

/-- Python `url.rstrip(',')`: remove all trailing commas. -/
def rstripComma (l : List Char) : List Char :=
  (l.reverse.dropWhile (fun c => c = ',')).reverse

/-- A dot or slash character: the character set of Python
`lstrip("./")` and `lstrip("../")`. -/
def dotSlash (c : Char) : Bool := c = '.' || c = '/'

/-- The condition of the `while` loop in `clean_urls`:
`startswith("./") or startswith("../")`. -/
def startsDotSlash (l : List Char) : Bool :=
  (['.', '/'].isPrefixOf l) || (['.', '.', '/'].isPrefixOf l)

/-- The `while` loop of `clean_urls`, with fuel.  Each iteration runs
`lstrip("./")` then `lstrip("../")`; both strip all leading characters
drawn from the set containing dot and slash. -/
def stripLoopAux : Nat → List Char → List Char
  | 0, l => l
  | n+1, l =>
      if startsDotSlash l then
        stripLoopAux n ((l.dropWhile dotSlash).dropWhile dotSlash)
      else l

/-- `clean_urls` on one string: the strip loop, then prepend `/` when
the result does not already start with `/` (`startswith("/")`). -/
def clean_url (l : List Char) : List Char :=
  let s := stripLoopAux (l.length + 1) l
  if ['/'].isPrefixOf s then s else '/' :: s

/-- `clean_urls` on a list of match strings (the tuple fields other
than the string pass through the Python function unchanged). -/
def clean_urls (ls : List (List Char)) : List (List Char) :=
  ls.map clean_url

/-- The three match categories. -/
inductive Cat where
  | fullUrl
  | relUrl
  | fwdSlash
deriving DecidableEq, Repr

/-- `extract_urls(text, ...)` reduced to the (string, category) pairs:
full matches with trailing commas stripped, then the cleaned
PARTIAL_URL matches, then the cleaned FORWARD_SLASH matches.  The
`repo`, `file_path` and enumeration fields of the Python tuples are
carried through unchanged and are dropped by the aggregator, so they
are omitted here. -/
def extract_urls (text : List Char) : List (List Char × Cat) :=
  ((fullFindAll text).map (fun u => (rstripComma u, Cat.fullUrl)))
    ++ ((clean_urls ((relFindAll text).map rstripComma)).map (fun u => (u, Cat.relUrl)))
    ++ ((clean_urls ((fwdFindAll text).map rstripComma)).map (fun u => (u, Cat.fwdSlash)))

/-- The accumulating `all_urls` dictionary of
`search_directory_for_urls`: one set of strings per category, modelled
as duplicate-free lists in insertion order. -/
structure RS where
  fullUrls : List (List Char)
  relUrls : List (List Char)
  fwdSlashes : List (List Char)
deriving DecidableEq, Repr

/-- The initial dictionary with three empty sets. -/
def emptyRS : RS := ⟨[], [], []⟩

/-- Python `set.add`: a no-op when the element is present. -/
def insertStr (l : List (List Char)) (u : List Char) : List (List Char) :=
  if u ∈ l then l else l ++ [u]

/-- The body of the per-match loop of `search_directory_for_urls`:
skip the match if any forbidden character occurs in it, otherwise add
it to the set of its category. -/
def addUrl (forb : List Char) (rs : RS) (p : List Char × Cat) : RS :=
  if forb.any (fun ch => p.1.contains ch) then rs
  else
    match p.2 with
    | Cat.fullUrl => { rs with fullUrls := insertStr rs.fullUrls p.1 }
    | Cat.relUrl => { rs with relUrls := insertStr rs.relUrls p.1 }
    | Cat.fwdSlash => { rs with fwdSlashes := insertStr rs.fwdSlashes p.1 }

/-- Processing one readable file's content inside
`search_directory_for_urls`. -/
def mergeFile (forb : List Char) (rs : RS) (content : List Char) : RS :=
  (extract_urls content).foldl (addUrl forb) rs

/-- `search_directory_for_urls`, abstracted over the list of decoded
file contents produced by the directory walk. -/
def search_directory_for_urls (contents : List (List Char)) (forb : List Char) : RS :=
  contents.foldl (mergeFile forb) emptyRS

/-- The `forbidden_characters` list of `process_repo`. -/
def forbidden_repo : List Char :=
  [' ', '\"', '<', '>', '\\', '^', '\x60', '\x7b', '\x7d', '[', ']', '|',
   '\x7F', ')', '(', '@']

/-- The `forbidden_characters` list of `process_dir`. -/
def forbidden_dir : List Char :=
  [' ', '\"', '<', '>', '\\', '^', '\x60', '\x7b', '\x7d', '[', ']', '|',
   '\x7F', ')', '(']

/-- The base forbidden-character set as enumerated by the
specification (for comparison with the code's two lists). -/
def forbidden_base_spec : List Char :=
  [' ', '\"', '<', '>', '\\', '^', '\x60', '\x7b', '\x7d', '[', ']', '|',
   '\x7F', '(', ')']

/-- Iteration order of `all_urls.items()`: insertion order of the
dictionary literal. -/
def items (rs : RS) : List (Cat × List (List Char)) :=
  [(Cat.fullUrl, rs.fullUrls), (Cat.relUrl, rs.relUrls), (Cat.fwdSlash, rs.fwdSlashes)]

/-- The category name used in the per-URL output lines. -/
def flagName : Cat → List Char
  | Cat.fullUrl => ("FULL_URL").toList
  | Cat.relUrl => ("PARTIAL_URL").toList
  | Cat.fwdSlash => ("FORWARD_SLASH").toList

/-- The header written by the `if`/`elif` chain of `process_repo` for
each category. -/
def catHeader : Cat → List Char
  | Cat.fullUrl => ("FULL_URLS:\n").toList
  | Cat.relUrl => ("\nPARTIAL_URLS:\n").toList
  | Cat.fwdSlash => ("\nFORWARD_SLASHES:\n").toList

/-- One output line `f"{flag}: {url}\n"`. -/
def urlLine (fl : Cat) (u : List Char) : List Char :=
  flagName fl ++ (": ").toList ++ u ++ ['\n']

/-- The character stream written by the output loop of `process_repo`:
a header per category, then one line per URL of that category. -/
def process_repo_output (rs : RS) : List Char :=
  (items rs).foldl
    (fun acc p => p.2.foldl (fun a u => a ++ urlLine p.1 u) (acc ++ catHeader p.1)) []

/-- The character stream written by the output loop of `process_dir`:
one line per URL, no headers. -/
def process_dir_output (rs : RS) : List Char :=
  (items rs).foldl
    (fun acc p => p.2.foldl (fun a u => a ++ urlLine p.1 u) acc) []

/-- `hasSeq pat l`: `pat` occurs as a contiguous subsequence of `l`
(used to state where the category-header strings occur in the two
output streams). -/
def hasSeq (pat : List Char) : List Char → Bool
  | [] => pat.isEmpty
  | c :: t => pat.isPrefixOf (c :: t) || hasSeq pat t

/-- The set of one category inside the accumulating dictionary. -/
def catField (rs : RS) : Cat → List (List Char)
  | Cat.fullUrl => rs.fullUrls
  | Cat.relUrl => rs.relUrls
  | Cat.fwdSlash => rs.fwdSlashes

/-! ### Helper lemmas about the strip loop of `clean_urls` -/

theorem dropWhile_idem (p : Char → Bool) (l : List Char) :
    (l.dropWhile p).dropWhile p = l.dropWhile p := by
  induction l with
  | nil => rfl
  | cons c t ih =>
    by_cases h : p c <;> simp [List.dropWhile_cons, h, ih]

theorem dropWhile_head_false (p : Char → Bool) :
    ∀ (l : List Char) (a : Char) (t : List Char), l.dropWhile p = a :: t → p a = false := by
  intro l
  induction l with
  | nil => intro a t h; simp [List.dropWhile] at h
  | cons c cs ih =>
    intro a t h
    by_cases hc : p c
    · rw [List.dropWhile_cons] at h
      simp [hc] at h
      exact ih a t h
    · rw [List.dropWhile_cons] at h
      simp [hc] at h
      rw [← h.1]
      simp [hc]

theorem startsDotSlash_dropWhile (l : List Char) :
    startsDotSlash (l.dropWhile dotSlash) = false := by
  cases h : l.dropWhile dotSlash with
  | nil => rfl
  | cons a t =>
    have ha : dotSlash a = false := dropWhile_head_false dotSlash l a t h
    have ha' : a ≠ '.' := by
      intro hq; rw [hq] at ha; simp [dotSlash] at ha
    simp [startsDotSlash, List.isPrefixOf]
    exact ⟨fun hq => absurd hq.symm ha', fun hq => absurd hq.symm ha'⟩

theorem stripLoopAux_of_not (n : Nat) (l : List Char) (h : startsDotSlash l = false) :
    stripLoopAux (n + 1) l = l := by
  simp [stripLoopAux, h]

theorem stripLoopAux_of_starts (n : Nat) (l : List Char) (h : startsDotSlash l = true) :
    stripLoopAux (n + 2) l = l.dropWhile dotSlash := by
  have : stripLoopAux (n + 2) l
      = stripLoopAux (n + 1) ((l.dropWhile dotSlash).dropWhile dotSlash) := by
    simp [stripLoopAux, h]
  rw [this, dropWhile_idem]
  exact stripLoopAux_of_not n _ (startsDotSlash_dropWhile l)

theorem startsDotSlash_length (l : List Char) (h : startsDotSlash l = true) :
    1 ≤ l.length := by
  cases l with
  | nil => simp [startsDotSlash, List.isPrefixOf] at h
  | cons a t => simp

theorem clean_url_of_starts (l : List Char) (h : startsDotSlash l = true) :
    clean_url l = '/' :: l.dropWhile dotSlash := by
  obtain ⟨m, hm⟩ : ∃ m, l.length + 1 = m + 2 :=
    ⟨l.length - 1, by have := startsDotSlash_length l h; omega⟩
  have hs : stripLoopAux (l.length + 1) l = l.dropWhile dotSlash := by
    rw [hm]; exact stripLoopAux_of_starts m l h
  have hhead : ¬ (['/'].isPrefixOf (l.dropWhile dotSlash) = true) := by
    cases hdw : l.dropWhile dotSlash with
    | nil => simp [List.isPrefixOf]
    | cons a t =>
      have ha : dotSlash a = false := dropWhile_head_false dotSlash l a t hdw
      have ha' : a ≠ '/' := by
        intro hq; rw [hq] at ha; simp [dotSlash] at ha
      simp [List.isPrefixOf, ha']
      intro hq; exact ha' hq.symm
  unfold clean_url
  rw [hs]
  simp [hhead]

theorem clean_url_of_not_starts (l : List Char) (h : startsDotSlash l = false) :
    clean_url l = if ['/'].isPrefixOf l then l else '/' :: l := by
  unfold clean_url
  rw [stripLoopAux_of_not l.length l h]

theorem clean_url_of_head_slash (t : List Char) :
    clean_url ('/' :: t) = '/' :: t := by
  have h : startsDotSlash ('/' :: t) = false := by
    simp [startsDotSlash, List.isPrefixOf]
  rw [clean_url_of_not_starts _ h]
  simp [List.isPrefixOf]

/-! ### C4, C6, C7, C8, C9, C10 -/

/-- C4 (counterexample): the claim predicts that normalization strips
the input `....//x` character-by-character down to `/x`; in fact the
strip loop is never entered (the string starts with neither `./` nor
`../`) and the result is `/....//x`. -/
theorem c4_counterexample :
    clean_url (("....//x").toList) = ("/....//x").toList
      ∧ clean_url (("....//x").toList) ≠ ("/x").toList := by
  constructor
  · decide
  · decide

/-- C4 (amended): the strip loop runs only when the string starts with
the exact prefix `./` or `../`; any other string — `....//x` included —
is left unstripped, and only the leading `/` is ensured. -/
theorem c4_amended (s : List Char) (h : startsDotSlash s = false) :
    clean_url s = if ['/'].isPrefixOf s then s else '/' :: s :=
  clean_url_of_not_starts s h

/-- C4 (witness): the amended claim applied to `....//x`. -/
theorem c4_amended_witness :
    startsDotSlash (("....//x").toList) = false
      ∧ clean_url (("....//x").toList) = '/' :: ("....//x").toList :=
  ⟨by decide, (c4_amended (("....//x").toList) (by decide)).trans (by decide)⟩

/-- C6: the repository-clone forbidden-character set is exactly the
base set plus `@`, and the local-directory set is exactly the base set;
the two configurations differ only in `@`. -/
theorem c6_forbidden_sets :
    forbidden_repo.toFinset = forbidden_base_spec.toFinset ∪ {'@'}
      ∧ forbidden_dir.toFinset = forbidden_base_spec.toFinset
      ∧ forbidden_repo.toFinset = forbidden_dir.toFinset ∪ {'@'}
      ∧ '@' ∉ forbidden_dir.toFinset := by
  refine ⟨by decide, by decide, by decide, by decide⟩

/-- C8: normalization is the identity on strings already in normalized
form (leading single `/`, no leading dots). -/
theorem c8_idempotent (s : List Char) (h1 : s.take 1 = ['/'])
    (h2 : s.take 2 ≠ ['/', '/']) (h3 : s.take 2 ≠ ['/', '.']) :
    clean_url s = s := by
  cases s with
  | nil => simp at h1
  | cons a t =>
    have ha : a = '/' := by simpa using h1
    subst ha
    exact clean_url_of_head_slash t

/-- C8 (witness): normalization leaves `/etc/passwd` unchanged. -/
theorem c8_idempotent_witness :
    (("/etc/passwd").toList.take 1 = ['/']
        ∧ ("/etc/passwd").toList.take 2 ≠ ['/', '/']
        ∧ ("/etc/passwd").toList.take 2 ≠ ['/', '.'])
      ∧ clean_url (("/etc/passwd").toList) = ("/etc/passwd").toList :=
  ⟨by decide, c8_idempotent (("/etc/passwd").toList) (by decide) (by decide) (by decide)⟩

/-- C9: on the text `a  b` (which contains no `/` at all) the
FORWARD_SLASH pattern produces an empty raw match, normalization turns
it into the bare string `/`, and `/` is inserted into the FORWARD_SLASH
set of the accumulated result. -/
theorem c9_empty_match_slash :
    (("a  b").toList.contains '/') = false
      ∧ [] ∈ fwdFindAll (("a  b").toList)
      ∧ clean_url (rstripComma []) = ['/']
      ∧ ['/'] ∈ (mergeFile forbidden_dir emptyRS (("a  b").toList)).fwdSlashes := by
  refine ⟨by decide, by decide, by decide, by decide⟩

/-- C10: whenever a string starts with `./` or `../`, one pass of the
strip loop removes all leading dot and slash characters, not just the
matched prefix; the result is `/` followed by the remainder. -/
theorem c10_strip_all (s : List Char) (h : startsDotSlash s = true) :
    clean_url s = '/' :: s.dropWhile dotSlash :=
  clean_url_of_starts s h

/-- C10 (witness): `./.config/x` normalizes to `/config/x`, losing the
leading dot of the file name. -/
theorem c10_strip_all_witness :
    startsDotSlash (("./.config/x").toList) = true
      ∧ clean_url (("./.config/x").toList) = ("/config/x").toList :=
  ⟨by decide, (c10_strip_all (("./.config/x").toList) (by decide)).trans (by decide)⟩

/-! ### C7: report-writer output format -/

theorem foldl_append_join (f : List Char → List Char) :
    ∀ (set : List (List Char)) (acc : List Char),
      set.foldl (fun a u => a ++ f u) acc = acc ++ (set.map f).flatten := by
  intro set
  induction set with
  | nil => intro acc; simp
  | cons x xs ih =>
    intro acc
    simp [List.foldl_cons, ih, List.append_assoc]

/-- C7 (counterexample): the claim places the interleaved
category-header lines in directory-scan mode; in fact the directory
writer emits no header at all, while the repo writer emits the
`FULL_URLS:` / `PARTIAL_URLS:` / `FORWARD_SLASHES:` headers. -/
theorem c7_counterexample :
    hasSeq (("FULL_URLS:").toList)
        (process_dir_output ⟨[("https://a.com/x").toList], [("/p").toList], [("/q").toList]⟩) = false
      ∧ hasSeq (("PARTIAL_URLS:").toList)
        (process_dir_output ⟨[("https://a.com/x").toList], [("/p").toList], [("/q").toList]⟩) = false
      ∧ hasSeq (("FORWARD_SLASHES:").toList)
        (process_dir_output ⟨[("https://a.com/x").toList], [("/p").toList], [("/q").toList]⟩) = false
      ∧ hasSeq (("FULL_URLS:").toList)
        (process_repo_output ⟨[("https://a.com/x").toList], [("/p").toList], [("/q").toList]⟩) = true
      ∧ hasSeq (("PARTIAL_URLS:").toList)
        (process_repo_output ⟨[("https://a.com/x").toList], [("/p").toList], [("/q").toList]⟩) = true
      ∧ hasSeq (("FORWARD_SLASHES:").toList)
        (process_repo_output ⟨[("https://a.com/x").toList], [("/p").toList], [("/q").toList]⟩) = true := by
  refine ⟨by decide, by decide, by decide, by decide, by decide, by decide⟩

/-- C7 (amended): both writers emit one `<CATEGORY>: <string>` line per
surviving match, grouped in the fixed order FULL_URL, PARTIAL_URL,
FORWARD_SLASH; the repo-scan writer interleaves the header lines
`FULL_URLS:` / `PARTIAL_URLS:` / `FORWARD_SLASHES:` while the
directory-scan writer emits the bare lines with no headers. -/
theorem c7_amended (rs : RS) :
    process_repo_output rs =
        ("FULL_URLS:\n").toList ++ (rs.fullUrls.map (urlLine Cat.fullUrl)).flatten
          ++ ("\nPARTIAL_URLS:\n").toList ++ (rs.relUrls.map (urlLine Cat.relUrl)).flatten
          ++ ("\nFORWARD_SLASHES:\n").toList ++ (rs.fwdSlashes.map (urlLine Cat.fwdSlash)).flatten
      ∧ process_dir_output rs =
        (rs.fullUrls.map (urlLine Cat.fullUrl)).flatten
          ++ (rs.relUrls.map (urlLine Cat.relUrl)).flatten
          ++ (rs.fwdSlashes.map (urlLine Cat.fwdSlash)).flatten := by
  constructor
  · simp [process_repo_output, items, foldl_append_join, catHeader, List.append_assoc]
  · simp [process_dir_output, items, foldl_append_join, List.append_assoc]

/-! ### C1: ResultSet invariants of the aggregator -/

theorem insertStr_self (l : List (List Char)) (u : List Char) : u ∈ insertStr l u := by
  unfold insertStr
  by_cases h : u ∈ l <;> simp [h]

theorem insertStr_mono {l : List (List Char)} {v : List Char} (u : List Char)
    (h : v ∈ l) : v ∈ insertStr l u := by
  unfold insertStr
  by_cases hm : u ∈ l <;> simp [hm, h]

theorem insertStr_of_mem {l : List (List Char)} {u : List Char} (h : u ∈ l) :
    insertStr l u = l := by
  simp [insertStr, h]

theorem insertStr_nodup {l : List (List Char)} (u : List Char) (h : l.Nodup) :
    (insertStr l u).Nodup := by
  unfold insertStr
  by_cases hm : u ∈ l
  · simp [hm, h]
  · simp [hm, List.nodup_append, h]

theorem addUrl_mono (forb : List Char) (rs : RS) (p : List Char × Cat)
    (c : Cat) {v : List Char} (h : v ∈ catField rs c) :
    v ∈ catField (addUrl forb rs p) c := by
  unfold addUrl
  split
  · exact h
  · rcases hp : p.2 with _ | _ | _ <;>
      cases c <;> simp [catField] at h ⊢ <;>
      first | exact insertStr_mono p.1 h | exact h

theorem addUrl_mem (forb : List Char) (rs : RS) (p : List Char × Cat)
    (h : forb.any (fun ch => p.1.contains ch) = false) :
    p.1 ∈ catField (addUrl forb rs p) p.2 := by
  unfold addUrl
  rw [h]
  simp only [Bool.false_eq_true, if_false]
  rcases hp : p.2 with _ | _ | _ <;> simp [catField, insertStr_self]


theorem addUrl_frozen (forb : List Char) (rs : RS) (p : List Char × Cat)
    (h : forb.any (fun ch => p.1.contains ch) = true ∨ p.1 ∈ catField rs p.2) :
    addUrl forb rs p = rs := by
  unfold addUrl
  rcases h with h | h
  · rw [h]
    simp only [if_true]
  · split
    · rfl
    · rcases hp : p.2 with _ | _ | _ <;> rw [hp] at h <;>
        simp [catField] at h <;> simp [insertStr_of_mem h]

theorem foldl_addUrl_mono (forb : List Char) (xs : List (List Char × Cat)) :
    ∀ (rs : RS) (c : Cat) (v : List Char), v ∈ catField rs c →
      v ∈ catField (xs.foldl (addUrl forb) rs) c := by
  induction xs with
  | nil => intro rs c v h; simpa using h
  | cons p ps ih =>
    intro rs c v h
    exact ih (addUrl forb rs p) c v (addUrl_mono forb rs p c h)

theorem foldl_addUrl_mem (forb : List Char) (xs : List (List Char × Cat)) :
    ∀ (rs : RS) (p : List Char × Cat), p ∈ xs →
      forb.any (fun ch => p.1.contains ch) = false →
      p.1 ∈ catField (xs.foldl (addUrl forb) rs) p.2 := by
  induction xs with
  | nil => intro rs p h; simp at h
  | cons q qs ih =>
    intro rs p h hk
    rcases List.mem_cons.mp h with h | h
    · subst h
      exact foldl_addUrl_mono forb qs (addUrl forb rs p) p.2 p.1
        (addUrl_mem forb rs p hk)
    · exact ih (addUrl forb rs q) p h hk

theorem foldl_addUrl_frozen (forb : List Char) (xs : List (List Char × Cat)) :
    ∀ (rs : RS),
      (∀ p ∈ xs, forb.any (fun ch => p.1.contains ch) = true ∨ p.1 ∈ catField rs p.2) →
      xs.foldl (addUrl forb) rs = rs := by
  induction xs with
  | nil => intro rs _; rfl
  | cons p ps ih =>
    intro rs h
    have hfr : addUrl forb rs p = rs :=
      addUrl_frozen forb rs p (h p (List.mem_cons_self p ps))
    rw [List.foldl_cons, hfr]
    exact ih rs (fun q hq => h q (List.mem_cons_of_mem p hq))

theorem mergeFile_idem (forb : List Char) (rs : RS) (content : List Char) :
    mergeFile forb (mergeFile forb rs content) content = mergeFile forb rs content := by
  unfold mergeFile
  apply foldl_addUrl_frozen
  intro p hp
  by_cases hk : forb.any (fun ch => p.1.contains ch)
  · exact Or.inl hk
  · refine Or.inr ?_
    exact foldl_addUrl_mem forb (extract_urls content) rs p hp (by simpa using hk)

theorem addUrl_nodup (forb : List Char) (rs : RS) (p : List Char × Cat)
    (h : ∀ c, (catField rs c).Nodup) :
    ∀ c, (catField (addUrl forb rs p) c).Nodup := by
  intro c
  unfold addUrl
  split
  · exact h c
  · rcases hp : p.2 with _ | _ | _ <;> cases c <;> simp [catField] <;>
      first
        | exact insertStr_nodup p.1 (h Cat.fullUrl)
        | exact insertStr_nodup p.1 (h Cat.relUrl)
        | exact insertStr_nodup p.1 (h Cat.fwdSlash)
        | exact h Cat.fullUrl | exact h Cat.relUrl | exact h Cat.fwdSlash

theorem foldl_addUrl_nodup (forb : List Char) (xs : List (List Char × Cat)) :
    ∀ (rs : RS), (∀ c, (catField rs c).Nodup) →
      ∀ c, (catField (xs.foldl (addUrl forb) rs) c).Nodup := by
  induction xs with
  | nil => intro rs h; simpa using h
  | cons p ps ih =>
    intro rs h
    exact ih (addUrl forb rs p) (addUrl_nodup forb rs p h)

theorem mem_insertStr (l : List (List Char)) (u v : List Char)
    (h : v ∈ insertStr l u) : v ∈ l ∨ v = u := by
  unfold insertStr at h
  by_cases hm : u ∈ l
  · simp [hm] at h; exact Or.inl h
  · simp [hm] at h; exact h

theorem addUrl_clean (forb : List Char) (rs : RS) (p : List Char × Cat)
    (h : ∀ c v, v ∈ catField rs c → forb.any (fun ch => v.contains ch) = false) :
    ∀ c v, v ∈ catField (addUrl forb rs p) c →
      forb.any (fun ch => v.contains ch) = false := by
  intro c v hv
  unfold addUrl at hv
  split at hv
  · exact h c v hv
  · next hf =>
    have hf' : forb.any (fun ch => p.1.contains ch) = false := by
      cases hb : forb.any (fun ch => p.1.contains ch)
      · rfl
      · exact absurd hb hf
    have hcore : v ∈ catField rs c ∨ v = p.1 := by
      rcases hp : p.2 with _ | _ | _ <;> rw [hp] at hv <;>
        cases c <;> simp [catField] at hv ⊢ <;>
        first | exact mem_insertStr _ p.1 v hv | exact Or.inl hv
    rcases hcore with hc | hc
    · exact h c v hc
    · subst hc; exact hf'

theorem foldl_addUrl_clean (forb : List Char) (xs : List (List Char × Cat)) :
    ∀ (rs : RS),
      (∀ c v, v ∈ catField rs c → forb.any (fun ch => v.contains ch) = false) →
      ∀ c v, v ∈ catField (xs.foldl (addUrl forb) rs) c →
        forb.any (fun ch => v.contains ch) = false := by
  induction xs with
  | nil => intro rs h; simpa using h
  | cons p ps ih =>
    intro rs h
    exact ih (addUrl forb rs p) (addUrl_clean forb rs p h)

theorem scan_nodup_clean (forb : List Char) (contents : List (List Char)) :
    ∀ (rs : RS), (∀ c, (catField rs c).Nodup) →
      (∀ c v, v ∈ catField rs c → forb.any (fun ch => v.contains ch) = false) →
      (∀ c, (catField (contents.foldl (mergeFile forb) rs) c).Nodup)
        ∧ (∀ c v, v ∈ catField (contents.foldl (mergeFile forb) rs) c →
            forb.any (fun ch => v.contains ch) = false) := by
  induction contents with
  | nil => intro rs h1 h2; exact ⟨by simpa using h1, by simpa using h2⟩
  | cons content cs ih =>
    intro rs h1 h2
    exact ih (mergeFile forb rs content)
      (foldl_addUrl_nodup forb (extract_urls content) rs h1)
      (foldl_addUrl_clean forb (extract_urls content) rs h2)

/-- C1: across a whole scan, each category's set is duplicate-free, no
string containing a forbidden character is ever inserted, and merging
the matches of the same file content twice yields the same ResultSet as
merging it once. -/
theorem c1_resultset_invariants (contents : List (List Char)) (forb : List Char) :
    ((search_directory_for_urls contents forb).fullUrls.Nodup
        ∧ (search_directory_for_urls contents forb).relUrls.Nodup
        ∧ (search_directory_for_urls contents forb).fwdSlashes.Nodup)
      ∧ (∀ u, (u ∈ (search_directory_for_urls contents forb).fullUrls
            ∨ u ∈ (search_directory_for_urls contents forb).relUrls
            ∨ u ∈ (search_directory_for_urls contents forb).fwdSlashes) →
          forb.any (fun ch => u.contains ch) = false)
      ∧ (∀ (rs : RS) (content : List Char),
          mergeFile forb (mergeFile forb rs content) content
            = mergeFile forb rs content) := by
  have h := scan_nodup_clean forb contents emptyRS
    (by intro c; cases c <;> simp [catField, emptyRS])
    (by intro c v hv; cases c <;> simp [catField, emptyRS] at hv)
  refine ⟨⟨h.1 Cat.fullUrl, h.1 Cat.relUrl, h.1 Cat.fwdSlash⟩, ?_, ?_⟩
  · intro u hu
    rcases hu with hu | hu | hu
    · exact h.2 Cat.fullUrl u hu
    · exact h.2 Cat.relUrl u hu
    · exact h.2 Cat.fwdSlash u hu
  · intro rs content
    exact mergeFile_idem forb rs content

/-- C1 (witness): the invariants instantiated on a one-file scan of the
text `see ./a here` with the local-directory configuration. -/
theorem c1_resultset_invariants_witness :
    (search_directory_for_urls [("see ./a here").toList] forbidden_dir).relUrls.Nodup
      ∧ ("/a").toList ∈ (search_directory_for_urls [("see ./a here").toList] forbidden_dir).relUrls
      ∧ forbidden_dir.any (fun ch => (("/a").toList).contains ch) = false
      ∧ mergeFile forbidden_dir (mergeFile forbidden_dir emptyRS (("see ./a here").toList))
          (("see ./a here").toList)
        = mergeFile forbidden_dir emptyRS (("see ./a here").toList) :=
  ⟨(c1_resultset_invariants [("see ./a here").toList] forbidden_dir).1.2.1,
   by decide,
   (c1_resultset_invariants [("see ./a here").toList] forbidden_dir).2.1 (("/a").toList)
     (Or.inr (Or.inl (by decide))),
   (c1_resultset_invariants [("see ./a here").toList] forbidden_dir).2.2 emptyRS
     (("see ./a here").toList)⟩

/-! ### C2: shape of extracted FULL_URL strings -/

theorem dropWhile_append_head_false (p : Char → Bool) :
    ∀ (xs : List Char) {a : Char} {t : List Char}, p a = false →
      (xs ++ a :: t).dropWhile p = xs.dropWhile p ++ a :: t := by
  intro xs
  induction xs with
  | nil =>
    intro a t ha
    simp [List.dropWhile_cons, ha]
  | cons c cs ih =>
    intro a t ha
    by_cases hc : p c <;> simp [List.dropWhile_cons, hc, ih ha]

theorem rstripComma_append (a b : List Char) {z : List Char}
    (hz : a.reverse = '/' :: z) : rstripComma (a ++ b) = a ++ rstripComma b := by
  unfold rstripComma
  rw [List.reverse_append, hz,
    dropWhile_append_head_false (fun c => c = ',') b.reverse (by decide)]
  rw [List.reverse_append, ← hz]
  simp

theorem rstripComma_subset {l : List Char} {c : Char} (h : c ∈ rstripComma l) :
    c ∈ l := by
  unfold rstripComma at h
  rw [List.mem_reverse] at h
  have := (List.dropWhile_sublist (fun c => c = ',') (l := l.reverse)).mem h
  rwa [List.mem_reverse] at this

theorem tryUrl_shape {l m rest : List Char} (h : tryUrl l = some (m, rest)) :
    ∃ run, (m = ("https://").toList ++ run ∨ m = ("http://").toList ++ run)
      ∧ (∀ c ∈ run, allowedUrlChar c = true) := by
  unfold tryUrl at h
  split at h
  · next t =>
    by_cases hr : (t.takeWhile allowedUrlChar).isEmpty
    · simp [hr] at h
    · simp [hr] at h
      refine ⟨t.takeWhile allowedUrlChar, Or.inl ?_, ?_⟩
      · rw [← h.1]; rfl
      · intro c hc; exact List.mem_takeWhile_imp hc
  · next t =>
    by_cases hr : (t.takeWhile allowedUrlChar).isEmpty
    · simp [hr] at h
    · simp [hr] at h
      refine ⟨t.takeWhile allowedUrlChar, Or.inr ?_, ?_⟩
      · rw [← h.1]; rfl
      · intro c hc; exact List.mem_takeWhile_imp hc
  · exact absurd h (by simp)

theorem urlScanAux_succ (n : Nat) (l : List Char) :
    urlScanAux (n + 1) l =
      match tryUrl l with
      | some (m, rest) => m :: urlScanAux n rest
      | none =>
        match l with
        | [] => []
        | _ :: t => urlScanAux n t := rfl

theorem urlScanAux_shape (n : Nat) :
    ∀ (l u : List Char), u ∈ urlScanAux n l →
      ∃ run, (u = ("https://").toList ++ run ∨ u = ("http://").toList ++ run)
        ∧ (∀ c ∈ run, allowedUrlChar c = true) := by
  induction n with
  | zero => intro l u h; simp [urlScanAux] at h
  | succ n ih =>
    intro l u h
    rw [urlScanAux_succ] at h
    rcases htry : tryUrl l with _ | ⟨m, rest⟩
    · rw [htry] at h
      rcases l with _ | ⟨c, t⟩
      · simp at h
      · exact ih t u h
    · rw [htry] at h
      rcases List.mem_cons.mp h with h | h
      · subst h; exact tryUrl_shape htry
      · exact ih rest u h

/-- C2: every string of the FULL_URL category produced by the
extraction step starts with `http://` or `https://`, and every
character after the scheme lies in the allowed URL-character class of
the matcher. -/
theorem c2_full_url_shape (text u : List Char)
    (h : (u, Cat.fullUrl) ∈ extract_urls text) :
    ∃ run, (u = ("https://").toList ++ run ∨ u = ("http://").toList ++ run)
      ∧ (∀ c ∈ run, allowedUrlChar c = true) := by
  unfold extract_urls at h
  rcases List.mem_append.mp h with h | h
  swap
  · rcases List.mem_map.mp h with ⟨m, _, hm⟩
    simp at hm
  rcases List.mem_append.mp h with h | h
  swap
  · rcases List.mem_map.mp h with ⟨m, _, hm⟩
    simp at hm
  · rcases List.mem_map.mp h with ⟨m, hm, heq⟩
    have hu : u = rstripComma m := by
      have := congrArg Prod.fst heq
      simpa using this.symm
    obtain ⟨run, hscheme, hrun⟩ :=
      urlScanAux_shape (text.length + 1) text m hm
    rcases hscheme with hs | hs
    · refine ⟨rstripComma run, Or.inl ?_, ?_⟩
      · rw [hu, hs, rstripComma_append _ _ (z := (("https:/").toList.reverse)) (by decide)]
      · intro c hc; exact hrun c (rstripComma_subset hc)
    · refine ⟨rstripComma run, Or.inr ?_, ?_⟩
      · rw [hu, hs, rstripComma_append _ _ (z := (("http:/").toList.reverse)) (by decide)]
      · intro c hc; exact hrun c (rstripComma_subset hc)

/-- C2 (witness): the shape property at the concrete extraction of
`go https://ex.am/p now`. -/
theorem c2_full_url_shape_witness :
    ((("https://ex.am/p").toList, Cat.fullUrl)
        ∈ extract_urls (("go https://ex.am/p now").toList))
      ∧ ∃ run, (("https://ex.am/p").toList = ("https://").toList ++ run
            ∨ ("https://ex.am/p").toList = ("http://").toList ++ run)
          ∧ (∀ c ∈ run, allowedUrlChar c = true) :=
  ⟨by decide,
   c2_full_url_shape (("go https://ex.am/p now").toList) (("https://ex.am/p").toList)
     (by decide)⟩

/-! ### C3: shape of normalized PARTIAL_URL / FORWARD_SLASH outputs -/

theorem relScanAux_eq_true (n : Nat) (l : List Char) :
    relScanAux (n + 1) true l =
      match tryRel l with
      | some (g, rest) => g :: relScanAux n false rest
      | none => relScanAux n false l := rfl

theorem relScanAux_eq_false_nil (n : Nat) : relScanAux (n + 1) false [] = [] := rfl

theorem relScanAux_eq_false_cons (n : Nat) (c : Char) (t : List Char) :
    relScanAux (n + 1) false (c :: t) =
      if boundaryChar c then
        match tryRel t with
        | some (g, rest) => g :: relScanAux n false rest
        | none => relScanAux n false t
      else relScanAux n false t := rfl

theorem fwdScanAux_eq_true (n : Nat) (l : List Char) :
    fwdScanAux (n + 1) true l =
      match tryFwd l with
      | some (g, rest) =>
          if g.isEmpty then g :: fwdScanAux n false l
          else g :: fwdScanAux n false rest
      | none => fwdScanAux n false l := rfl

theorem fwdScanAux_eq_false_nil (n : Nat) : fwdScanAux (n + 1) false [] = [] := rfl

theorem fwdScanAux_eq_false_cons (n : Nat) (c : Char) (t : List Char) :
    fwdScanAux (n + 1) false (c :: t) =
      if boundaryChar c then
        match tryFwd t with
        | some (g, rest) => g :: fwdScanAux n false rest
        | none => fwdScanAux n false t
      else fwdScanAux n false t := rfl

theorem pwChar_ne_comma {c : Char} (h : pwChar c = true) : c ≠ ',' := by
  intro hq
  subst hq
  exact absurd h (by decide)

theorem takeWhile_head_not_slash {t : List Char} (p : Char → Bool)
    (hds : ¬ lineContains dsAt ('/' :: t) = true) :
    (t.takeWhile p).take 1 ≠ ['/'] := by
  intro hq
  cases t with
  | nil => simp [List.takeWhile] at hq
  | cons d t' =>
    have hd : d = '/' := by
      by_cases hp : p d
      · rw [List.takeWhile_cons] at hq
        simp [hp] at hq
        exact hq
      · rw [List.takeWhile_cons] at hq
        simp [hp] at hq
    subst hd
    exact hds (by simp [lineContains, dsAt])

theorem tryRel_out {r g rest : List Char} (h : tryRel r = some (g, rest)) :
    (startsDotSlash g = true ∧ ∀ c ∈ g, c ≠ ',')
      ∨ ∃ t, g = '/' :: t ∧ t.take 1 ≠ ['/'] := by
  unfold tryRel at h
  split at h
  · exact absurd h (by simp)
  · next hrej =>
    have hrej' : ¬ lineContains dsAt r = true := by
      intro hq
      exact hrej (by simp [rejectsAt, hq])
    split at h
    · next _ t =>
      split at h
      · left
        injection h with h
        injection h with h1 _
        constructor
        · rw [← h1]; simp [startsDotSlash, List.isPrefixOf]
        · intro c hc
          rw [← h1] at hc
          rcases List.mem_cons.mp hc with hc | hc
          · subst hc; decide
          rcases List.mem_cons.mp hc with hc | hc
          · subst hc; decide
          · exact pwChar_ne_comma (List.mem_takeWhile_imp hc)
      · exact absurd h (by simp)
    · next _ t =>
      split at h
      · left
        injection h with h
        injection h with h1 _
        constructor
        · rw [← h1]; simp [startsDotSlash, List.isPrefixOf]
        · intro c hc
          rw [← h1] at hc
          rcases List.mem_cons.mp hc with hc | hc
          · subst hc; decide
          rcases List.mem_cons.mp hc with hc | hc
          · subst hc; decide
          rcases List.mem_cons.mp hc with hc | hc
          · subst hc; decide
          · exact pwChar_ne_comma (List.mem_takeWhile_imp hc)
      · exact absurd h (by simp)
    · next _ t =>
      split at h
      · right
        injection h with h
        injection h with h1 _
        exact ⟨t.takeWhile pwChar, h1.symm, takeWhile_head_not_slash pwChar hrej'⟩
      · exact absurd h (by simp)
    · exact absurd h (by simp)

theorem tryFwd_out {r g rest : List Char} (h : tryFwd r = some (g, rest)) :
    g = [] ∨ ∃ t, g = '/' :: t ∧ t.take 1 ≠ ['/'] := by
  unfold tryFwd at h
  split at h
  · exact absurd h (by simp)
  · next hrej =>
    have hrej' : ¬ lineContains dsAt r = true := by
      intro hq
      exact hrej (by simp [rejectsAt, hq])
    split at h
    · next _ t =>
      split at h
      · right
        injection h with h
        injection h with h1 _
        exact ⟨t.takeWhile fwChar, h1.symm, takeWhile_head_not_slash fwChar hrej'⟩
      · exact absurd h (by simp)
    · split at h
      · left
        injection h with h
        injection h with h1 _
        exact h1.symm
      · exact absurd h (by simp)

theorem relScanAux_out (n : Nat) :
    ∀ (flag : Bool) (l g : List Char), g ∈ relScanAux n flag l →
      (startsDotSlash g = true ∧ ∀ c ∈ g, c ≠ ',')
        ∨ ∃ t, g = '/' :: t ∧ t.take 1 ≠ ['/'] := by
  induction n with
  | zero => intro flag l g h; simp [relScanAux] at h
  | succ n ih =>
    intro flag l g h
    cases flag
    · cases l with
      | nil => rw [relScanAux_eq_false_nil] at h; simp at h
      | cons c t =>
        rw [relScanAux_eq_false_cons] at h
        by_cases hb : boundaryChar c
        · rw [if_pos hb] at h
          rcases htry : tryRel t with _ | ⟨g0, rest⟩
          · rw [htry] at h
            exact ih false t g h
          · rw [htry] at h
            rcases List.mem_cons.mp h with h | h
            · subst h; exact tryRel_out htry
            · exact ih false rest g h
        · rw [if_neg hb] at h
          exact ih false t g h
    · rw [relScanAux_eq_true] at h
      rcases htry : tryRel l with _ | ⟨g0, rest⟩
      · rw [htry] at h
        exact ih false l g h
      · rw [htry] at h
        rcases List.mem_cons.mp h with h | h
        · subst h; exact tryRel_out htry
        · exact ih false rest g h

theorem fwdScanAux_out (n : Nat) :
    ∀ (flag : Bool) (l g : List Char), g ∈ fwdScanAux n flag l →
      g = [] ∨ ∃ t, g = '/' :: t ∧ t.take 1 ≠ ['/'] := by
  induction n with
  | zero => intro flag l g h; simp [fwdScanAux] at h
  | succ n ih =>
    intro flag l g h
    cases flag
    · cases l with
      | nil => rw [fwdScanAux_eq_false_nil] at h; simp at h
      | cons c t =>
        rw [fwdScanAux_eq_false_cons] at h
        by_cases hb : boundaryChar c
        · rw [if_pos hb] at h
          rcases htry : tryFwd t with _ | ⟨g0, rest⟩
          · rw [htry] at h
            exact ih false t g h
          · rw [htry] at h
            rcases List.mem_cons.mp h with h | h
            · subst h; exact tryFwd_out htry
            · exact ih false rest g h
        · rw [if_neg hb] at h
          exact ih false t g h
    · rw [fwdScanAux_eq_true] at h
      rcases htry : tryFwd l with _ | ⟨g0, rest⟩
      · rw [htry] at h
        exact ih false l g h
      · simp only [htry] at h
        split at h
        · rcases List.mem_cons.mp h with h | h
          · subst h; exact tryFwd_out htry
          · exact ih false l g h
        · rcases List.mem_cons.mp h with h | h
          · subst h; exact tryFwd_out htry
          · exact ih false rest g h

theorem rstripComma_no_comma {l : List Char} (h : ∀ c ∈ l, c ≠ ',') :
    rstripComma l = l := by
  unfold rstripComma
  cases hm : l.reverse with
  | nil =>
    have : l = [] := by
      have := congrArg List.reverse hm
      simpa using this
    simp [this]
  | cons a t =>
    have ha : a ∈ l := by
      rw [← List.mem_reverse, hm]
      exact List.mem_cons_self a t
    rw [List.dropWhile_cons]
    simp [h a ha, ← hm]

theorem rstripComma_decomp (l : List Char) : ∃ s, rstripComma l ++ s = l ∧ ∀ c ∈ s, c = ',' := by
  refine ⟨(l.reverse.takeWhile (fun c => c = ',')).reverse, ?_, ?_⟩
  · unfold rstripComma
    rw [← List.reverse_append, List.takeWhile_append_dropWhile, List.reverse_reverse]
  · intro c hc
    rw [List.mem_reverse] at hc
    have := List.mem_takeWhile_imp hc
    simpa using this

theorem rstripComma_slash {t : List Char} (ht : t.take 1 ≠ ['/']) :
    ∃ t', rstripComma ('/' :: t) = '/' :: t' ∧ t'.take 1 ≠ ['/'] := by
  obtain ⟨s, hs, hcs⟩ := rstripComma_decomp ('/' :: t)
  cases hv : rstripComma ('/' :: t) with
  | nil =>
    rw [hv] at hs
    simp at hs
    have hmem : '/' = ',' := hcs '/' (by rw [hs]; exact List.mem_cons_self '/' t)
    simp at hmem
  | cons a t' =>
    rw [hv] at hs
    rw [List.cons_append] at hs
    have ha : a = '/' := (List.cons.injEq a (t' ++ s) '/' t).mp hs |>.1
    have hts : t' ++ s = t := (List.cons.injEq a (t' ++ s) '/' t).mp hs |>.2
    subst ha
    refine ⟨t', rfl, ?_⟩
    intro hq
    cases t' with
    | nil => simp at hq
    | cons b tb =>
      have hb : b = '/' := by simpa using hq
      apply ht
      rw [← hts, hb]
      simp

theorem clean_rstrip_shape (g : List Char)
    (hg : (startsDotSlash g = true ∧ ∀ c ∈ g, c ≠ ',')
        ∨ g = []
        ∨ ∃ t, g = '/' :: t ∧ t.take 1 ≠ ['/']) :
    (clean_url (rstripComma g)).take 1 = ['/']
      ∧ (clean_url (rstripComma g)).take 2 ≠ ['/', '/']
      ∧ (clean_url (rstripComma g)).take 1 ≠ ['.'] := by
  rcases hg with ⟨hds, hnc⟩ | hg | ⟨t, rfl, ht⟩
  · rw [rstripComma_no_comma hnc, clean_url_of_starts g hds]
    refine ⟨by simp, ?_, by simp⟩
    cases hdw : g.dropWhile dotSlash with
    | nil => simp
    | cons a t' =>
      have ha := dropWhile_head_false dotSlash g a t' hdw
      have ha' : a ≠ '/' := by
        intro hq; rw [hq] at ha; simp [dotSlash] at ha
      simp [List.take]
      intro hq
      exact absurd hq ha'
  · subst hg
    refine ⟨by decide, by decide, by decide⟩
  · obtain ⟨t', hv, ht'⟩ := rstripComma_slash ht
    rw [hv, clean_url_of_head_slash t']
    refine ⟨by simp, ?_, by simp⟩
    cases htt : t' with
    | nil => simp
    | cons b tb =>
      have hb : b ≠ '/' := by
        intro hq
        apply ht'
        rw [htt, hq]
        simp
      simp [List.take]
      intro hq
      exact absurd hq hb

/-- C3: every string produced in the PARTIAL_URL or FORWARD_SLASH
category by the extraction step (after trailing-comma stripping and
normalization) starts with exactly one `/`: its first character is `/`,
its second character is not another `/`, and it has no leading dot. -/
theorem c3_normalized_shape (text u : List Char)
    (h : (u, Cat.relUrl) ∈ extract_urls text ∨ (u, Cat.fwdSlash) ∈ extract_urls text) :
    u.take 1 = ['/'] ∧ u.take 2 ≠ ['/', '/'] ∧ u.take 1 ≠ ['.'] := by
  have key : ∃ g, u = clean_url (rstripComma g)
      ∧ ((startsDotSlash g = true ∧ ∀ c ∈ g, c ≠ ',')
          ∨ g = [] ∨ ∃ t, g = '/' :: t ∧ t.take 1 ≠ ['/']) := by
    rcases h with h | h
    · unfold extract_urls at h
      rcases List.mem_append.mp h with h | h
      swap
      · rcases List.mem_map.mp h with ⟨m, _, hm⟩
        simp at hm
      rcases List.mem_append.mp h with h | h
      · rcases List.mem_map.mp h with ⟨m, _, hm⟩
        simp at hm
      · rcases List.mem_map.mp h with ⟨v, hv, heq⟩
        unfold clean_urls at hv
        rcases List.mem_map.mp hv with ⟨w, hw, hclean⟩
        rcases List.mem_map.mp hw with ⟨g, hg, hr⟩
        refine ⟨g, ?_, ?_⟩
        · have hu : v = u := by simpa using congrArg Prod.fst heq
          rw [← hu, ← hclean, ← hr]
        · unfold relFindAll at hg
          rcases relScanAux_out (text.length + 2) true text g hg with h1 | h1
          · exact Or.inl h1
          · exact Or.inr (Or.inr h1)
    · unfold extract_urls at h
      rcases List.mem_append.mp h with h | h
      · rcases List.mem_append.mp h with h | h
        · rcases List.mem_map.mp h with ⟨m, _, hm⟩
          simp at hm
        · rcases List.mem_map.mp h with ⟨m, _, hm⟩
          simp at hm
      · rcases List.mem_map.mp h with ⟨v, hv, heq⟩
        unfold clean_urls at hv
        rcases List.mem_map.mp hv with ⟨w, hw, hclean⟩
        rcases List.mem_map.mp hw with ⟨g, hg, hr⟩
        refine ⟨g, ?_, ?_⟩
        · have hu : v = u := by simpa using congrArg Prod.fst heq
          rw [← hu, ← hclean, ← hr]
        · unfold fwdFindAll at hg
          rcases fwdScanAux_out (text.length + 2) true text g hg with h1 | h1
          · exact Or.inr (Or.inl h1)
          · exact Or.inr (Or.inr h1)
  obtain ⟨g, rfl, hg⟩ := key
  exact clean_rstrip_shape g hg

/-- C3 (witness): the shape property at the concrete extraction of
`path: /etc/passwd`. -/
theorem c3_normalized_shape_witness :
    (((("/etc/passwd").toList, Cat.fwdSlash)
          ∈ extract_urls (("path: /etc/passwd").toList))
        ∨ False)
      ∧ ((("/etc/passwd").toList).take 1 = ['/']
          ∧ (("/etc/passwd").toList).take 2 ≠ ['/', '/']
          ∧ (("/etc/passwd").toList).take 1 ≠ ['.']) :=
  ⟨Or.inl (by decide),
   c3_normalized_shape (("path: /etc/passwd").toList) (("/etc/passwd").toList)
     (Or.inr (by decide))⟩

/-! ### C5: the PARTIAL_URL matcher on bounded tokens -/

theorem takeWhile_all (p : Char → Bool) :
    ∀ (w post : List Char), (∀ c ∈ w, p c = true) →
      (post = [] ∨ ∃ d t, post = d :: t ∧ p d = false) →
      (w ++ post).takeWhile p = w ∧ (w ++ post).dropWhile p = post := by
  intro w
  induction w with
  | nil =>
    intro post _ hpost
    rcases hpost with rfl | ⟨d, t, rfl, hd⟩
    · simp
    · simp [List.takeWhile_cons, List.dropWhile_cons, hd]
  | cons c w' ih =>
    intro post hw hpost
    have hc : p c = true := hw c (List.mem_cons_self c w')
    have := ih post (fun x hx => hw x (List.mem_cons_of_mem c hx)) hpost
    simp [List.takeWhile_cons, List.dropWhile_cons, hc, this.1, this.2]

theorem boundaryChar_not_pw {b : Char} (h : boundaryChar b = true) :
    pwChar b = false := by
  simp [boundaryChar, isSpacePy, isQuotePy] at h
  have hb : b = ' ' ∨ b = '\t' ∨ b = '\n' ∨ b = '\x0d' ∨ b = '\x0b' ∨ b = '\x0c'
      ∨ b = '\"' ∨ b = '\'' := by tauto
  rcases hb with rfl | rfl | rfl | rfl | rfl | rfl | rfl | rfl <;> decide

theorem tailOk_post_shape {post : List Char} (h : tailOk post = true) :
    post = [] ∨ ∃ d t, post = d :: t ∧ pwChar d = false := by
  cases post with
  | nil => exact Or.inl rfl
  | cons d t =>
    right
    refine ⟨d, t, rfl, ?_⟩
    have hb : boundaryChar d = true := by
      have := (Bool.and_eq_true _ _).mp h
      simpa [tailBoundary] using this.1
    exact boundaryChar_not_pw hb

theorem tryRel_token {tok post w : List Char}
    (htok : tok = '.' :: '/' :: w ∨ tok = '.' :: '.' :: '/' :: w)
    (hw : ∀ c ∈ w, pwChar c = true)
    (hrej : rejectsAt (tok ++ post) = false)
    (htail : tailOk post = true) :
    tryRel (tok ++ post) = some (tok, post) := by
  have hpost := tailOk_post_shape htail
  have h1 := takeWhile_all pwChar w post hw hpost
  rcases htok with rfl | rfl
  · unfold tryRel
    rw [hrej]
    simp only [Bool.false_eq_true, if_false]
    show (if tailOk ((w ++ post).dropWhile pwChar) then
        some ('.' :: '/' :: (w ++ post).takeWhile pwChar, (w ++ post).dropWhile pwChar)
      else none) = some ('.' :: '/' :: w, post)
    rw [h1.1, h1.2, htail]
    simp
  · unfold tryRel
    rw [hrej]
    simp only [Bool.false_eq_true, if_false]
    show (if tailOk ((w ++ post).dropWhile pwChar) then
        some ('.' :: '.' :: '/' :: (w ++ post).takeWhile pwChar, (w ++ post).dropWhile pwChar)
      else none) = some ('.' :: '.' :: '/' :: w, post)
    rw [h1.1, h1.2, htail]
    simp

theorem tryRel_consumed {r g rest : List Char} (h : tryRel r = some (g, rest)) :
    r = g ++ rest ∧ (∀ c ∈ g, pwChar c = true) ∧ g ≠ [] := by
  unfold tryRel at h
  split at h
  · exact absurd h (by simp)
  · split at h
    · next _ t =>
      split at h
      · injection h with h
        injection h with h1 h2
        refine ⟨?_, ?_, ?_⟩
        · rw [← h1, ← h2]
          simp [List.takeWhile_append_dropWhile]
        · intro c hc
          rw [← h1] at hc
          rcases List.mem_cons.mp hc with hc | hc
          · subst hc; decide
          rcases List.mem_cons.mp hc with hc | hc
          · subst hc; decide
          · exact List.mem_takeWhile_imp hc
        · rw [← h1]; simp
      · exact absurd h (by simp)
    · next _ t =>
      split at h
      · injection h with h
        injection h with h1 h2
        refine ⟨?_, ?_, ?_⟩
        · rw [← h1, ← h2]
          simp [List.takeWhile_append_dropWhile]
        · intro c hc
          rw [← h1] at hc
          rcases List.mem_cons.mp hc with hc | hc
          · subst hc; decide
          rcases List.mem_cons.mp hc with hc | hc
          · subst hc; decide
          rcases List.mem_cons.mp hc with hc | hc
          · subst hc; decide
          · exact List.mem_takeWhile_imp hc
        · rw [← h1]; simp
      · exact absurd h (by simp)
    · next _ t =>
      split at h
      · injection h with h
        injection h with h1 h2
        refine ⟨?_, ?_, ?_⟩
        · rw [← h1, ← h2]
          simp [List.takeWhile_append_dropWhile]
        · intro c hc
          rw [← h1] at hc
          rcases List.mem_cons.mp hc with hc | hc
          · subst hc; decide
          · exact List.mem_takeWhile_imp hc
        · rw [← h1]; simp
      · exact absurd h (by simp)
    · exact absurd h (by simp)

theorem consume_before_boundary {b : Char} (hpw : pwChar b = false) :
    ∀ (g : List Char), (∀ c ∈ g, pwChar c = true) →
      ∀ (rest pre s : List Char), g ++ rest = pre ++ b :: s →
      ∃ pre2, rest = pre2 ++ b :: s ∧ pre = g ++ pre2 := by
  intro g
  induction g with
  | nil =>
    intro _ rest pre s h
    exact ⟨pre, by simpa using h, by simp⟩
  | cons x g' ih =>
    intro hg rest pre s h
    cases pre with
    | nil =>
      simp at h
      have hx : x = b := h.1
      have : pwChar x = true := hg x (List.mem_cons_self x g')
      rw [hx, hpw] at this
      simp at this
    | cons y pre' =>
      rw [List.cons_append, List.cons_append] at h
      have hxy : x = y := (List.cons.injEq x _ y _).mp h |>.1
      have htl : g' ++ rest = pre' ++ b :: s := (List.cons.injEq x _ y _).mp h |>.2
      obtain ⟨pre2, h1, h2⟩ :=
        ih (fun c hc => hg c (List.mem_cons_of_mem x hc)) rest pre' s htl
      exact ⟨pre2, h1, by rw [h2, hxy]; simp⟩

theorem relScan_complete_aux {tok post w : List Char}
    (htok : tok = '.' :: '/' :: w ∨ tok = '.' :: '.' :: '/' :: w)
    (hw : ∀ c ∈ w, pwChar c = true)
    (hrej : rejectsAt (tok ++ post) = false)
    (htail : tailOk post = true) :
    ∀ (n : Nat) (l pre : List Char) (b : Char), l.length < n →
      boundaryChar b = true → l = pre ++ b :: (tok ++ post) →
      tok ∈ relScanAux n false l := by
  intro n
  induction n with
  | zero => intro l pre b hlen; omega
  | succ n ih =>
    intro l pre b hlen hb hl
    cases pre with
    | nil =>
      subst hl
      simp only [List.nil_append]
      rw [relScanAux_eq_false_cons, if_pos hb, tryRel_token htok hw hrej htail]
      exact List.mem_cons_self tok _
    | cons c pre' =>
      subst hl
      rw [List.cons_append, relScanAux_eq_false_cons]
      have hlen' : (pre' ++ b :: (tok ++ post)).length < n := by
        simp [List.length_cons] at hlen
        simp [List.length_append, List.length_cons]
        omega
      by_cases hbc : boundaryChar c
      · rw [if_pos hbc]
        rcases htry : tryRel (pre' ++ b :: (tok ++ post)) with _ | ⟨g, rest⟩
        · exact ih (pre' ++ b :: (tok ++ post)) pre' b hlen' hb rfl
        · obtain ⟨hgr, hgpw, hgne⟩ := tryRel_consumed htry
          obtain ⟨pre2, h1, h2⟩ :=
            consume_before_boundary (boundaryChar_not_pw hb) g hgpw rest pre'
              (tok ++ post) hgr.symm
          have hrest : rest.length < n := by
            have hsum : (pre' ++ b :: (tok ++ post)).length = g.length + rest.length := by
              rw [hgr, List.length_append]
            have hg1 : 1 ≤ g.length := by
              cases g with
              | nil => exact absurd rfl hgne
              | cons _ _ => simp
            omega
          exact List.mem_cons_of_mem g (ih rest pre2 b hrest hb h1)
      · rw [if_neg hbc]
        exact ih (pre' ++ b :: (tok ++ post)) pre' b hlen' hb rfl

/-- C5 (counterexample): in the text `./a b//c` the token `./a` is
bounded by start-of-text and a space, is not adjacent to the `//`
(which sits four characters later), and no comma occurs — yet the
PARTIAL_URL matcher produces no match at all, because the `(?!.*//)`
lookahead rejects on a `//` occurring anywhere later in the line. -/
theorem c5_counterexample :
    relFindAll (("./a b//c").toList) = []
      ∧ (("./a b//c").toList).take 3 = ("./a").toList
      ∧ (("./a b//c").toList).take 4 = ("./a ").toList
      ∧ (("./a b//c").toList).drop 4 = ("b//c").toList := by
  refine ⟨by decide, by decide, by decide, by decide⟩

/-- C5 (amended): the PARTIAL_URL matcher matches every token starting
with `./` or `../` followed by word/path characters that is bounded by
start-of-text/whitespace/quote on the left and
whitespace/end-of-text/quote on the right, provided no `//`, `**`,
`/*-` or `/*=` occurs anywhere in the rest of the line from the token's
start and no comma occurs in the rest of the line after the token; in
particular `import "./utils/helper"` yields the raw match
`./utils/helper`. -/
theorem c5_amended (text tok post w : List Char)
    (htok : tok = '.' :: '/' :: w ∨ tok = '.' :: '.' :: '/' :: w)
    (hw : ∀ c ∈ w, pwChar c = true)
    (hrej : rejectsAt (tok ++ post) = false)
    (htail : tailOk post = true)
    (hocc : text = tok ++ post
        ∨ ∃ pre b, boundaryChar b = true ∧ text = pre ++ b :: (tok ++ post)) :
    tok ∈ relFindAll text := by
  unfold relFindAll
  rcases hocc with rfl | ⟨pre, b, hb, rfl⟩
  · show tok ∈ relScanAux ((tok ++ post).length + 1 + 1) true (tok ++ post)
    rw [relScanAux_eq_true, tryRel_token htok hw hrej htail]
    exact List.mem_cons_self tok _
  · show tok ∈ relScanAux ((pre ++ b :: (tok ++ post)).length + 1 + 1) true
      (pre ++ b :: (tok ++ post))
    rw [relScanAux_eq_true]
    rcases htry : tryRel (pre ++ b :: (tok ++ post)) with _ | ⟨g, rest⟩
    · exact relScan_complete_aux htok hw hrej htail
        ((pre ++ b :: (tok ++ post)).length + 1) (pre ++ b :: (tok ++ post)) pre b
        (by omega) hb rfl
    · obtain ⟨hgr, hgpw, hgne⟩ := tryRel_consumed htry
      obtain ⟨pre2, h1, h2⟩ :=
        consume_before_boundary (boundaryChar_not_pw hb) g hgpw rest pre
          (tok ++ post) hgr.symm
      have hrest : rest.length < (pre ++ b :: (tok ++ post)).length + 1 := by
        have hsum : (pre ++ b :: (tok ++ post)).length = g.length + rest.length := by
          rw [hgr, List.length_append]
        omega
      exact List.mem_cons_of_mem g
        (relScan_complete_aux htok hw hrej htail
          ((pre ++ b :: (tok ++ post)).length + 1) rest pre2 b hrest hb h1)

/-- C5 (witness): the amended claim applied to `import "./utils/helper"`,
together with the normalization of the raw match to `/utils/helper`. -/
theorem c5_amended_witness :
    ("./utils/helper").toList ∈ relFindAll (("import \"./utils/helper\"").toList)
      ∧ clean_url (rstripComma (("./utils/helper").toList)) = ("/utils/helper").toList :=
  ⟨c5_amended (("import \"./utils/helper\"").toList) (("./utils/helper").toList)
      ['\"'] (("utils/helper").toList)
      (Or.inl (by decide)) (by decide) (by decide) (by decide)
      (Or.inr ⟨("import ").toList, '\"', by decide, by decide⟩),
   by decide⟩

end EndpointScrape
